import Mathlib

/-!
Shallow embedding of the iboardbot-web robot driver core (`robot.rs`) and of
the polyline fitting code (`scaling.rs`), together with theorems checking the
specification's claims against it.

Conventions used throughout:
* `u8` / `u16` / `u32` values are `ℕ`, with every wrap the Rust source
  performs written explicitly (`% 256` for `as u8`, `% 65536` for `u16`
  shifts, and the `u32` parse bound `< 2^32`).
* `f64` coordinates are modelled as `ℚ`; the Rust `as u16` cast is
  truncation toward zero with saturation (`ratTruncU16`).
* A Rust function that can `panic!` is modelled with `Option` (`none` is the
  panic).
* The serial conversation loop and the task intake loop are modelled as pure
  step functions on explicit state.
-/

namespace IBoardBot

/-- A `svg2polylines::Polyline`: a list of `(x, y)` coordinate pairs in mm. -/
abbrev Polyline := List (ℚ × ℚ)

/-- robot.rs: `type Block = Vec<u8>;` (bytes as naturals `< 256`). -/
abbrev Block := List ℕ

/-- robot.rs: `const IBB_WIDTH: u16 = 358;`. -/
def IBB_WIDTH : ℕ := 358

/-- robot.rs: `const IBB_HEIGHT: u16 = 123;`. -/
def IBB_HEIGHT : ℕ := 123

/-- robot.rs: `enum Command`.  `blockNumber` carries a `u16`, `move` two
`u16`s, `wait` a `u8`; the numeric fields are naturals here and every wrap
the source performs on them appears in the byte encoding below. -/
inductive Command where
  | blockStart
  | blockNumber (num : ℕ)
  | startDrawing
  | stopDrawing
  | penLift
  | penDown
  | enableEraser
  | move (x y : ℕ)
  | wait (seconds : ℕ)
deriving DecidableEq, Repr

/-- robot.rs: `Command::to_bytes`.  The two `panic!` branches
(`num >= 4000`, `seconds > 30`) are modelled as `none`.  Casts follow the
source: `as u8` is `% 256`, and the `u16` shift `num << 4` wraps `% 65536`
before further masking. -/
def Command.toBytes : Command → Option (List ℕ)
  | .blockStart => some [0xfa, 0x9f, 0xa1]
  | .blockNumber num =>
      if 4000 ≤ num then none
      else some [0xfa, ((0x09 <<< 4) ||| (num >>> 8)) % 256, (num &&& 0xff) % 256]
  | .startDrawing => some [0xfa, 0x1f, 0xa1]
  | .stopDrawing => some [0xfa, 0x20, 0x00]
  | .penLift => some [0xfa, 0x30, 0x00]
  | .penDown => some [0xfa, 0x40, 0x00]
  | .move x y =>
      some [(x >>> 4) &&& 0xff, (((x <<< 4) % 65536) ||| (y >>> 8)) &&& 0xff, y &&& 0xff]
  | .wait seconds => if 30 < seconds then none else some [0xfa, 0x60, seconds]
  | .enableEraser => some [0xfa, 0x50, 0x00]

/-- The bytes `Command::to_bytes` produces on its non-panicking path (total
version; the compiler only feeds it commands on which `toBytes` is `some`,
see `toBytes_eq_some_toBytesTotal` below). -/
def Command.toBytesTotal : Command → List ℕ
  | .blockStart => [0xfa, 0x9f, 0xa1]
  | .blockNumber num => [0xfa, ((0x09 <<< 4) ||| (num >>> 8)) % 256, (num &&& 0xff) % 256]
  | .startDrawing => [0xfa, 0x1f, 0xa1]
  | .stopDrawing => [0xfa, 0x20, 0x00]
  | .penLift => [0xfa, 0x30, 0x00]
  | .penDown => [0xfa, 0x40, 0x00]
  | .move x y =>
      [(x >>> 4) &&& 0xff, (((x <<< 4) % 65536) ||| (y >>> 8)) &&& 0xff, y &&& 0xff]
  | .wait seconds => [0xfa, 0x60, seconds]
  | .enableEraser => [0xfa, 0x50, 0x00]

/-- robot.rs: `fix_x` — clamp an x coordinate (mm) into `[0, IBB_WIDTH]`. -/
def fix_x (x : ℚ) : ℚ :=
  if x < 0 then 0
  else if x > (IBB_WIDTH : ℚ) then (IBB_WIDTH : ℚ)
  else x

/-- robot.rs: `fix_y` — invert (SVG top-left origin to device bottom-left
origin) and clamp a y coordinate (mm) into `[0, IBB_HEIGHT]`. -/
def fix_y (y : ℚ) : ℚ :=
  let yy := (IBB_HEIGHT : ℚ) - y
  if yy < 0 then 0
  else if yy > (IBB_HEIGHT : ℚ) then (IBB_HEIGHT : ℚ)
  else yy

/-- The Rust `f64 as u16` cast: truncate toward zero, saturating into
`[0, 65535]` (for inputs `≤ 0` the result is `0`; for positive `q` the
truncation is `q.num.toNat / q.den`, the floor of `q`). -/
def ratTruncU16 (q : ℚ) : ℕ :=
  if q ≤ 0 then 0 else min (q.num.toNat / q.den) 65535

/-- The `Command::Move` built for one source point in `Sketch::into_blocks`:
`Move((fix_x(p.x) * 10.0) as u16, (fix_y(p.y) * 10.0) as u16)`. -/
def moveFor (p : ℚ × ℚ) : Command :=
  .move (ratTruncU16 (fix_x p.1 * 10)) (ratTruncU16 (fix_y p.2 * 10))

/-- The commands `Sketch::into_blocks` adds for one polyline: nothing when
it has fewer than 2 points (skipped with a warning), else
`Move(start); PenDown; Move(point)*; PenLift`. -/
def polylineCommands : Polyline → List Command
  | p0 :: p1 :: rest =>
      moveFor p0 :: Command.penDown :: ((p1 :: rest).map moveFor ++ [Command.penLift])
  | _ => []

/-- The `loop` inside `Sketch::erase_all`, starting at height `y` (mm):
per iteration move right at height `y*10`, step down (`u16` arithmetic:
`if y > 10 { y -= 10 } else { y = 0 }`), move back left, step down again.
`fuel` is an upper bound on the number of iterations; `y` strictly
decreases each iteration, so `fuel = y` suffices. -/
def eraseLoopGo : ℕ → ℕ → List Command
  | 0, _ => []
  | fuel + 1, y =>
      if y = 0 then []
      else
        let y1 := if y > 10 then y - 10 else 0
        let y2 := if y1 > 10 then y1 - 10 else 0
        Command.move (IBB_WIDTH * 10) (y * 10) ::
        Command.move (IBB_WIDTH * 10) (y1 * 10) ::
        Command.move 0 (y1 * 10) ::
        Command.move 0 (y2 * 10) ::
        eraseLoopGo fuel y2

/-- robot.rs: `Sketch::erase_all` — the full-board erase sweep (without the
surrounding `StartDrawing` / `StopDrawing`). -/
def eraseAllCommands : List Command :=
  Command.penLift :: Command.move 0 (IBB_HEIGHT * 10) :: Command.enableEraser ::
    (eraseLoopGo IBB_HEIGHT IBB_HEIGHT ++ [Command.penLift, Command.move 0 0])

/-- The full command stream `Sketch::into_blocks` writes into `self.buf`
(at command granularity; the buffer itself is its `toBytesTotal` image). -/
def sketchCommands (polylines : List Polyline) (erase : Bool) : List Command :=
  Command.startDrawing ::
    ((if erase then eraseAllCommands else [Command.penLift, Command.move 0 0]) ++
      (polylines.flatMap polylineCommands ++ [Command.move 0 0, Command.stopDrawing]))

/-- The byte buffer `self.buf` after all `add_command` calls. -/
def sketchBuf (polylines : List Polyline) (erase : Bool) : List ℕ :=
  (sketchCommands polylines erase).flatMap Command.toBytesTotal

/-- Rust `slice::chunks(n)` (for `n ≥ 1`): consecutive chunks of length `n`,
the last possibly shorter; an empty slice yields no chunks.  `fuel` bounds
the recursion; `fuel = l.length` suffices when `n ≥ 1`. -/
def chunksGo (n : ℕ) : ℕ → List ℕ → List (List ℕ)
  | _, [] => []
  | 0, _ :: _ => []
  | fuel + 1, x :: xs => (x :: xs).take n :: chunksGo n fuel ((x :: xs).drop n)

/-- Rust `slice::chunks(n)` on a list. -/
def chunksList (n : ℕ) (l : List ℕ) : List (List ℕ) :=
  chunksGo n l.length l

/-- The block-header bytes for block number `num` (a `u16`):
`Command::BlockNumber(num).to_bytes()` on the non-panicking path. -/
def blockNumberBytes (num : ℕ) : List ℕ :=
  Command.toBytesTotal (.blockNumber num)

/-- The `for (i, chunk) in ... .enumerate()` loop of `Sketch::into_blocks`:
block `i` (0-based, starting at `i0`) is
`BlockStart.to_bytes() ++ BlockNumber((i+1) as u16).to_bytes() ++ chunk`. -/
def mkBlocks : ℕ → List (List ℕ) → List Block
  | _, [] => []
  | i, c :: cs =>
      (0xfa :: 0x9f :: 0xa1 :: (blockNumberBytes ((i + 1) % 65536) ++ c)) :: mkBlocks (i + 1) cs

/-- robot.rs: `Sketch::into_blocks(erase)`.  `block_size = 768`; the buffer
is split into chunks of `768 - 6 = 762` bytes.  The result is `none` when
the loop would panic, i.e. when some chunk index `i` has
`(i+1) as u16 >= 4000` inside `BlockNumber::to_bytes`. -/
def intoBlocks (polylines : List Polyline) (erase : Bool) : Option (List Block) :=
  let chunks := chunksList (768 - 6) (sketchBuf polylines erase)
  if ∃ i ∈ List.range chunks.length, 4000 ≤ (i + 1) % 65536 then none
  else some (mkBlocks 0 chunks)

end IBoardBot

namespace IBoardBot

/-! ## Serial conversation loop (robot.rs `communicate`) -/

/-- State owned by the serial conversation thread that the per-line logic
touches: the pending-block queue and `current_block`. -/
structure SerialState where
  queue : List Block
  currentBlock : ℕ
deriving DecidableEq, Repr

/-- The literal `"CL "` as characters. -/
def clPre : List Char := String.toList "CL "

/-- The literal `"CL STATUS=READY"` as characters. -/
def readyLine : List Char := String.toList "CL STATUS=READY"

/-- The literal `"CL STATUS=ACK&NUM="` as characters (18 characters). -/
def ackPre : List Char := String.toList "CL STATUS=ACK&NUM="

/-- Rust `str::starts_with`. -/
def hasPre (pre l : List Char) : Bool :=
  l.take pre.length == pre

/-- The regex `^CL STATUS=ACK&NUM=(\d+)$`: the line matches exactly when it
is the 18-character ACK prologue followed by one or more digits, and the
capture is that digit string. -/
def ackCapture (line : List Char) : Option (List Char) :=
  if hasPre ackPre line then
    let rest := line.drop ackPre.length
    if rest ≠ [] ∧ rest.all Char.isDigit then some rest else none
  else none

/-- Numeric value of a digit string. -/
def digitsToNat (ds : List Char) : ℕ :=
  ds.foldl (fun a c => a * 10 + (c.toNat - 48)) 0

/-- Rust `str::parse::<u32>()` on a non-empty all-digit string: the value,
unless it overflows `u32`. -/
def parseU32 (ds : List Char) : Option ℕ :=
  let v := digitsToNat ds
  if v < 4294967296 then some v else none

/-- The send decision of `communicate` for one trimmed line that starts with
`"CL "` (given a non-empty queue): returns `(send_next, current_block)`,
where `current_block` reflects the `current_block = 1` reset performed in
the `number > current_block` arm.  Match arms are tried in source order:
`READY`, then `number == 1`, `number == current_block`,
`number > current_block`, other parses, parse failure. -/
def serialDecision (current : ℕ) (line : List Char) : Bool × ℕ :=
  if line = readyLine then (true, current)
  else
    match ackCapture line with
    | some ds =>
      match parseU32 ds with
      | some number =>
        if number = 1 then (true, current)
        else if number = current then (true, current)
        else if current < number then (true, 1)
        else (false, current)
      | none => (false, current)
    | none => (false, current)

/-- One iteration of the serial conversation body for one received line
(already trimmed): if the queue is non-empty and the line starts with
`"CL "`, run the decision; on `send_next` pop the front block and
increment `current_block` (the popped block is then written to the port).
Returns the new state and whether a block was sent. -/
def serialStep (st : SerialState) (line : List Char) : SerialState × Bool :=
  if 0 < st.queue.length ∧ hasPre clPre line then
    let d := serialDecision st.currentBlock line
    if d.1 then (⟨st.queue.tail, d.2 + 1⟩, true)
    else (⟨st.queue, d.2⟩, false)
  else (st, false)

/-! ## Task intake and the scheduled-repeat engine (robot.rs `communicate`) -/

/-- robot.rs `enum PrintTask` (the `Duration` is its whole number of
seconds). -/
inductive PrintTask where
  | once (polylines : List Polyline)
  | scheduled (intervalSecs : ℕ) (polylinesVec : List (List Polyline))
deriving DecidableEq

/-- The active periodic job: interval plus the drawings it rotates over. -/
structure SchedJob where
  intervalSecs : ℕ
  sets : List (List Polyline)
deriving DecidableEq

/-- Outcome of the `Ok(task)` arm of the intake `match` in `communicate`. -/
inductive HandleResult where
  /-- The loop continues with this active job, iteration counter and
  pending queue. -/
  | proceed (job : Option SchedJob) (iter : ℕ) (queue : List Block)
  /-- The `return` statement was executed: the driver thread terminates. -/
  | threadExit
  /-- `Sketch::into_blocks` panicked. -/
  | panicked
deriving DecidableEq

/-- The `Ok(task)` arm of `communicate`'s intake `match`: any previous job's
handle is stopped (so the previous schedule no longer fires; a stopped
handle is modelled as `none`), the iteration counter is stored to `0`, and
then:
* `Once(p)`: compile with `erase = true`, append the blocks;
* `Scheduled(interval, sets)` with empty `sets`: `warn!` then `return` —
  which exits the whole thread closure;
* `Scheduled(interval, sets)` otherwise: register the periodic job. -/
def handleTask (queue : List Block) : PrintTask → HandleResult
  | .once polylines =>
    match intoBlocks polylines true with
    | some bs => .proceed none 0 (queue ++ bs)
    | none => .panicked
  | .scheduled intervalSecs polylinesVec =>
    if polylinesVec = [] then .threadExit
    else .proceed (some ⟨intervalSecs, polylinesVec⟩) 0 queue

/-- One firing of the scheduled closure: `fetch_add` the iteration counter,
pick `polylines_vec[i % polylines_vec.len()]`, compile with `erase = true`
and append the blocks to the queue (a panicking compile appends nothing
here; the panic stays inside the executor worker). -/
def scheduledFire (sets : List (List Polyline)) :
    ℕ × List Block → ℕ × List Block
  | (iter, queue) =>
    (iter + 1, queue ++ ((intoBlocks (sets.getD (iter % sets.length) []) true).getD []))

/-- The state after `k` firings of a fresh schedule (counter reset to 0,
starting from queue `q`). -/
def runFirings (sets : List (List Polyline)) (q : List Block) (k : ℕ) :
    ℕ × List Block :=
  (scheduledFire sets)^[k] (0, q)

end IBoardBot

namespace Scaling

/-! ## scaling.rs -/

open IBoardBot (Polyline)

/-- scaling.rs `struct Range`. -/
structure Range where
  min : ℚ
  max : ℚ
deriving DecidableEq, Repr

/-- scaling.rs `Range::spread`. -/
def Range.spread (r : Range) : ℚ := r.max - r.min

/-- scaling.rs `struct Bounds`. -/
structure Bounds where
  x : Range
  y : Range
deriving DecidableEq, Repr

/-- One `match` step of `get_bounds` for a minimum accumulator. -/
def updMin (cur : Option ℚ) (v : ℚ) : Option ℚ :=
  match cur with
  | none => some v
  | some x => if v < x then some v else some x

/-- One `match` step of `get_bounds` for a maximum accumulator. -/
def updMax (cur : Option ℚ) (v : ℚ) : Option ℚ :=
  match cur with
  | none => some v
  | some x => if v > x then some v else some x

/-- The accumulator of `get_bounds`: `(x_min, x_max, y_min, y_max)`. -/
abbrev BoundsAcc := Option ℚ × Option ℚ × Option ℚ × Option ℚ

/-- The body of `get_bounds`' inner loop for one coordinate pair. -/
def boundsStep (acc : BoundsAcc) (c : ℚ × ℚ) : BoundsAcc :=
  (updMin acc.1 c.1, updMax acc.2.1 c.1, updMin acc.2.2.1 c.2, updMax acc.2.2.2 c.2)

/-- scaling.rs `get_bounds`: fold over every coordinate of every polyline;
`Some` exactly when all four accumulators ended up `Some`. -/
def getBounds (polylines : List Polyline) : Option Bounds :=
  let acc : BoundsAcc :=
    polylines.foldl (fun a pl => pl.foldl boundsStep a) (none, none, none, none)
  match acc with
  | (some xmin, some xmax, some ymin, some ymax) =>
      some ⟨⟨xmin, xmax⟩, ⟨ymin, ymax⟩⟩
  | _ => none

/-- scaling.rs `partial_min` (kept under a shorter name). -/
def pmin (v1 v2 : ℚ) : ℚ := if v1 ≤ v2 then v1 else v2

/-- Model of `f64::is_normal` on the exact-arithmetic model: the only
non-normal value a spread ratio can take in `ℚ` is `0` (a zero spread
divides to `0` here where `f64` would give an infinity or NaN; zero,
infinite, subnormal and NaN are exactly what `is_normal` excludes). -/
def isNormalQ (q : ℚ) : Bool := q ≠ 0

/-- scaling.rs `fit_polylines`.  The Rust function mutates `polylines` in
place and returns `Result<(), String>`; here it returns the final list
next to the result, so `Err` and early-`Ok` cases leave the list component
unchanged exactly when the source leaves the vector untouched. -/
def fitPolylines (polylines : List Polyline) (targetBounds : Bounds) :
    Except String Unit × List Polyline :=
  if polylines = [] then (.ok (), polylines)
  else
    match getBounds polylines with
    | none => (.error "Could not calculate bounds", polylines)
    | some currentBounds =>
      let xFactor := targetBounds.x.spread / currentBounds.x.spread
      let yFactor := targetBounds.y.spread / currentBounds.y.spread
      let scaleFactor := pmin
        (if isNormalQ xFactor then xFactor else 1)
        (if isNormalQ yFactor then yFactor else 1)
      let width := currentBounds.x.spread * scaleFactor
      let xOffset := (targetBounds.x.spread - width) / 2
      (.ok (), polylines.map (List.map (fun c =>
        ((c.1 - currentBounds.x.min) * scaleFactor + targetBounds.x.min + xOffset,
         (c.2 - currentBounds.y.min) * scaleFactor + targetBounds.y.min))))

end Scaling

namespace IBoardBot

/-! ## Helper lemmas about the sketch compiler -/

theorem toBytesTotal_length (c : Command) : (Command.toBytesTotal c).length = 3 := by
  cases c <;> simp [Command.toBytesTotal]

theorem flatMap_toBytesTotal_length (cs : List Command) :
    (cs.flatMap Command.toBytesTotal).length = 3 * cs.length := by
  induction cs with
  | nil => simp
  | cons c cs ih =>
      simp [List.flatMap_cons, ih, toBytesTotal_length c]
      ring

theorem sketchBuf_length_dvd (P : List Polyline) (e : Bool) :
    3 ∣ (sketchBuf P e).length := by
  rw [sketchBuf, flatMap_toBytesTotal_length]
  exact Dvd.intro _ rfl

theorem chunksGo_join (n : ℕ) (hn : 1 ≤ n) :
    ∀ (fuel : ℕ) (l : List ℕ), l.length ≤ fuel → (chunksGo n fuel l).flatten = l := by
  intro fuel
  induction fuel with
  | zero =>
      intro l hl
      cases l with
      | nil => simp [chunksGo]
      | cons x xs => simp at hl
  | succ fuel ih =>
      intro l hl
      cases l with
      | nil => simp [chunksGo]
      | cons x xs =>
          rw [chunksGo]
          rw [List.flatten_cons, ih ((x :: xs).drop n) ?_, List.take_append_drop]
          have := List.length_drop n (x :: xs)
          omega

theorem chunksGo_mem (n : ℕ) (hn : 1 ≤ n) :
    ∀ (fuel : ℕ) (l : List ℕ) (c : List ℕ), c ∈ chunksGo n fuel l →
      c ≠ [] ∧ c.length ≤ n := by
  intro fuel
  induction fuel with
  | zero =>
      intro l c hc
      cases l <;> simp [chunksGo] at hc
  | succ fuel ih =>
      intro l c hc
      cases l with
      | nil => simp [chunksGo] at hc
      | cons x xs =>
          rw [chunksGo] at hc
          rcases List.mem_cons.mp hc with h | h
          · subst h
            constructor
            · have : n = (n - 1) + 1 := by omega
              rw [this]
              simp [List.take_succ_cons]
            · simp
          · exact ih _ _ h

theorem chunksGo_mem_dvd (n : ℕ) (hn : 1 ≤ n) (h3 : 3 ∣ n) :
    ∀ (fuel : ℕ) (l : List ℕ) (c : List ℕ), l.length ≤ fuel → 3 ∣ l.length →
      c ∈ chunksGo n fuel l → 3 ∣ c.length := by
  intro fuel
  induction fuel with
  | zero =>
      intro l c hl h3l hc
      cases l <;> simp [chunksGo] at hc
  | succ fuel ih =>
      intro l c hl h3l hc
      cases l with
      | nil => simp [chunksGo] at hc
      | cons x xs =>
          rw [chunksGo] at hc
          rcases List.mem_cons.mp hc with h | h
          · subst h
            rw [List.length_take]
            rcases Nat.le_total n (x :: xs).length with hle | hle
            · rwa [min_eq_left hle]
            · rwa [min_eq_right hle]
          · refine ih ((x :: xs).drop n) c ?_ ?_ h
            · have := List.length_drop n (x :: xs)
              omega
            · rw [List.length_drop]
              omega

theorem mkBlocks_length (cs : List (List ℕ)) :
    ∀ i, (mkBlocks i cs).length = cs.length := by
  induction cs with
  | nil => intro i; simp [mkBlocks]
  | cons c cs ih => intro i; simp [mkBlocks, ih]

theorem mkBlocks_getD (cs : List (List ℕ)) :
    ∀ (i k : ℕ), k < cs.length →
      (mkBlocks i cs).getD k [] =
        0xfa :: 0x9f :: 0xa1 :: (blockNumberBytes ((i + k + 1) % 65536) ++ cs.getD k []) := by
  induction cs with
  | nil => intro i k hk; simp at hk
  | cons c cs ih =>
      intro i k hk
      cases k with
      | zero => simp [mkBlocks]
      | succ k =>
          have hk2 : k < cs.length := by
            simp only [List.length_cons] at hk
            omega
          simp only [mkBlocks, List.getD_cons_succ]
          rw [ih (i + 1) k hk2, show i + 1 + k = i + (k + 1) from by omega]

theorem getD_mem {α : Type} (l : List α) (k : ℕ) (d : α) (hk : k < l.length) :
    l.getD k d ∈ l := by
  rw [List.getD_eq_getElem l d hk]
  exact List.getElem_mem hk

/-- If `intoBlocks` succeeded, the chunk list has at most 3999 entries and
the result is `mkBlocks 0` of it. -/
theorem intoBlocks_eq_some (P : List Polyline) (e : Bool) (bs : List Block)
    (h : intoBlocks P e = some bs) :
    bs = mkBlocks 0 (chunksList 762 (sketchBuf P e)) ∧
      (chunksList 762 (sketchBuf P e)).length ≤ 3999 := by
  rw [intoBlocks] at h
  by_cases hc : ∃ i ∈ List.range (chunksList (768 - 6) (sketchBuf P e)).length,
      4000 ≤ (i + 1) % 65536
  · rw [if_pos hc] at h
    exact absurd h (by simp)
  · rw [if_neg hc] at h
    have hb : bs = mkBlocks 0 (chunksList 762 (sketchBuf P e)) := by
      have : (768 : ℕ) - 6 = 762 := by norm_num
      rw [this] at h
      exact (Option.some_inj.mp h).symm
    refine ⟨hb, ?_⟩
    by_contra hlen
    push_neg at hlen
    apply hc
    refine ⟨3999, ?_, by norm_num⟩
    rw [List.mem_range]
    have : (768 : ℕ) - 6 = 762 := by norm_num
    rw [this]
    omega

end IBoardBot

namespace IBoardBot

/-- C1: for every polyline list and erase flag, every block produced by
`Sketch::into_blocks` has total length in `[6, 768]`, its body after the
6-byte header has length a multiple of 3 and at most 762 bytes, and the
`k`-th emitted block (0-based) carries `BlockNumber (k+1)` encoded at bytes
3..6. -/
theorem c1_block_invariants (P : List Polyline) (e : Bool) (bs : List Block)
    (h : intoBlocks P e = some bs) (k : ℕ) (hk : k < bs.length) :
    6 ≤ (bs.getD k []).length ∧ (bs.getD k []).length ≤ 768 ∧
      ((bs.getD k []).length - 6) % 3 = 0 ∧ (bs.getD k []).length - 6 ≤ 762 ∧
      Command.toBytes (.blockNumber (k + 1)) = some (((bs.getD k []).drop 3).take 3) := by
  obtain ⟨hbs, hlen⟩ := intoBlocks_eq_some P e bs h
  set chunks := chunksList 762 (sketchBuf P e) with hchunks
  have hbl : bs.length = chunks.length := by rw [hbs, mkBlocks_length]
  have hkc : k < chunks.length := hbl ▸ hk
  have hknum : (0 + k + 1) % 65536 = k + 1 := by
    rw [Nat.zero_add]
    exact Nat.mod_eq_of_lt (by omega)
  have hget : bs.getD k [] =
      0xfa :: 0x9f :: 0xa1 :: (blockNumberBytes (k + 1) ++ chunks.getD k []) := by
    rw [hbs, mkBlocks_getD chunks 0 k hkc, hknum]
  have hmem : chunks.getD k [] ∈ chunks := getD_mem chunks k [] hkc
  have hmem2 := chunksGo_mem 762 (by norm_num) (sketchBuf P e).length (sketchBuf P e)
    (chunks.getD k []) hmem
  have hdvd := chunksGo_mem_dvd 762 (by norm_num) (by norm_num) (sketchBuf P e).length
    (sketchBuf P e) (chunks.getD k []) le_rfl (sketchBuf_length_dvd P e) hmem
  have hcne : 1 ≤ (chunks.getD k []).length := by
    have := hmem2.1
    cases hc : chunks.getD k [] with
    | nil => exact absurd hc this
    | cons a l => simp [hc]
  have hbn : (blockNumberBytes (k + 1)).length = 3 := toBytesTotal_length _
  have hlength : (bs.getD k []).length = 6 + (chunks.getD k []).length := by
    rw [hget]
    simp [hbn]
    omega
  refine ⟨by omega, by rw [hlength]; omega, ?_, by rw [hlength]; omega, ?_⟩
  · rw [hlength]
    omega
  · have hslice : ((bs.getD k []).drop 3).take 3 = blockNumberBytes (k + 1) := by
      rw [hget]
      simp only [List.drop_succ_cons, List.drop_zero]
      rw [← hbn, List.take_left]
    rw [hslice, Command.toBytes, blockNumberBytes, Command.toBytesTotal]
    rw [if_neg (by omega)]

/-- Witness for C1 at the empty sketch: its single block satisfies the
invariants. -/
theorem c1_block_invariants_witness :
    6 ≤ (((intoBlocks [] false).getD []).getD 0 []).length ∧
      (((intoBlocks [] false).getD []).getD 0 []).length ≤ 768 ∧
      ((((intoBlocks [] false).getD []).getD 0 []).length - 6) % 3 = 0 ∧
      (((intoBlocks [] false).getD []).getD 0 []).length - 6 ≤ 762 ∧
      Command.toBytes (.blockNumber (0 + 1)) =
        some (((((intoBlocks [] false).getD []).getD 0 []).drop 3).take 3) :=
  c1_block_invariants [] false ((intoBlocks [] false).getD []) (by decide) 0 (by decide)

end IBoardBot

namespace IBoardBot

/-- Reduction modulo `2^16` before an `|||` does not change the low byte. -/
theorem mod65536_or_and_ff (a b : ℕ) :
    ((a % 65536) ||| b) &&& 0xff = (a ||| b) &&& 0xff := by
  have h255 : (0xff : ℕ) = 2 ^ 8 - 1 := by norm_num
  have h65536 : (65536 : ℕ) = 2 ^ 16 := by norm_num
  rw [h255, h65536]
  apply Nat.eq_of_testBit_eq
  intro i
  simp only [Nat.testBit_land, Nat.testBit_lor, Nat.testBit_mod_two_pow,
    Nat.testBit_two_pow_sub_one]
  by_cases hi : i < 8
  · simp [hi, show i < 16 from by omega]
  · simp [hi]

/-- C2: `Command::to_bytes` always yields exactly 3 bytes, and the bytes
agree with the specification's table (for the in-range `BlockNumber` and
`Wait` payloads the table constrains). -/
theorem c2_codec_table :
    (∀ (c : Command) (bs : List ℕ), c.toBytes = some bs → bs.length = 3) ∧
    Command.toBytes .blockStart = some [0xfa, 0x9f, 0xa1] ∧
    (∀ num : ℕ, num < 4000 →
      Command.toBytes (.blockNumber num) =
        some [0xfa, 0x90 ||| (num >>> 8), num &&& 0xff]) ∧
    Command.toBytes .startDrawing = some [0xfa, 0x1f, 0xa1] ∧
    Command.toBytes .stopDrawing = some [0xfa, 0x20, 0x00] ∧
    Command.toBytes .penLift = some [0xfa, 0x30, 0x00] ∧
    Command.toBytes .penDown = some [0xfa, 0x40, 0x00] ∧
    Command.toBytes .enableEraser = some [0xfa, 0x50, 0x00] ∧
    (∀ s : ℕ, s ≤ 30 → Command.toBytes (.wait s) = some [0xfa, 0x60, s]) ∧
    (∀ x y : ℕ, Command.toBytes (.move x y) =
      some [(x >>> 4) &&& 0xff, ((x <<< 4) ||| (y >>> 8)) &&& 0xff, y &&& 0xff]) := by
  refine ⟨?_, rfl, ?_, rfl, rfl, rfl, rfl, rfl, ?_, ?_⟩
  · intro c bs h
    cases c <;> simp [Command.toBytes] at h <;>
      first
      | simp [← h]
      | (obtain ⟨h1, h2⟩ := h; simp [← h2])
  · intro num hnum
    rw [Command.toBytes, if_neg (by omega)]
    have hshift : num >>> 8 < 16 := by
      rw [Nat.shiftRight_eq_div_pow]
      omega
    have h1 : ((0x09 <<< 4) ||| (num >>> 8)) % 256 = 0x90 ||| (num >>> 8) := by
      have hlt : (0x09 <<< 4) ||| (num >>> 8) < 256 := by
        have : (0x90 : ℕ) < 2 ^ 8 := by norm_num
        have h2 : num >>> 8 < 2 ^ 8 := by omega
        calc (0x09 <<< 4) ||| (num >>> 8) = 0x90 ||| (num >>> 8) := by
              norm_num [Nat.shiftLeft_eq]
          _ < 2 ^ 8 := Nat.or_lt_two_pow this h2
      rw [Nat.mod_eq_of_lt hlt]
      norm_num [Nat.shiftLeft_eq]
    have h2 : (num &&& 0xff) % 256 = num &&& 0xff :=
      Nat.mod_eq_of_lt (by have := Nat.and_le_right (n := num) (m := 0xff); omega)
    rw [h1, h2]
  · intro s hs
    rw [Command.toBytes, if_neg (by omega)]
  · intro x y
    rw [Command.toBytes]
    rw [mod65536_or_and_ff]

/-- Witness for C2's conditional rows at concrete in-range payloads. -/
theorem c2_codec_table_witness :
    Command.toBytes (.blockNumber 258) = some [0xfa, 0x91, 0x02] ∧
      Command.toBytes (.wait 30) = some [0xfa, 0x60, 30] :=
  ⟨c2_codec_table.2.2.1 258 (by norm_num), c2_codec_table.2.2.2.2.2.2.2.2.1 30 (by norm_num)⟩

/-- C9: `Command::to_bytes` hits its fatal (`panic!`) branch exactly on
`BlockNumber num` with `num ≥ 4000` or `Wait s` with `s > 30`; every
in-range command encodes without panicking. -/
theorem c9_panic_iff (c : Command) :
    Command.toBytes c = none ↔
      (∃ num, c = .blockNumber num ∧ 4000 ≤ num) ∨ (∃ s, c = .wait s ∧ 30 < s) := by
  cases c <;> simp [Command.toBytes]

end IBoardBot

namespace IBoardBot

/-- The erase sweep as the specification words it: starting from `y = 123`,
while `y > 0`, per lap `Move(3580, y*10)`; `y := max(0, y-10)` (which is
truncated subtraction on `ℕ`); `Move(3580, y*10)`; `Move(0, y*10)`;
`y := max(0, y-10)`; `Move(0, y*10)`. -/
def eraseSweepSpecGo : ℕ → ℕ → List Command
  | 0, _ => []
  | fuel + 1, y =>
      if y = 0 then []
      else
        Command.move 3580 (y * 10) ::
        Command.move 3580 ((y - 10) * 10) ::
        Command.move 0 ((y - 10) * 10) ::
        Command.move 0 ((y - 10 - 10) * 10) ::
        eraseSweepSpecGo fuel (y - 10 - 10)

/-- The full sweep of the specification: `PenLift; Move(0, 1230);
EnableEraser`, the zig-zag from `y = 123`, then `PenLift; Move(0, 0)`. -/
def eraseSweepSpec : List Command :=
  Command.penLift :: Command.move 0 1230 :: Command.enableEraser ::
    (eraseSweepSpecGo 123 123 ++ [Command.penLift, Command.move 0 0])

/-- C6: with `erase = true` the command stream after `StartDrawing` begins
with exactly the specified sweep (ending in `PenLift; Move(0,0)`, so the
carriage is at `(0,0)` before any drawing command). -/
theorem c6_erase_sweep (P : List Polyline) :
    sketchCommands P true =
      Command.startDrawing ::
        (eraseSweepSpec ++
          (P.flatMap polylineCommands ++ [Command.move 0 0, Command.stopDrawing])) ∧
    eraseSweepSpec.getLast? = some (Command.move 0 0) ∧
    eraseSweepSpec.take 3 = [Command.penLift, Command.move 0 1230, Command.enableEraser] := by
  have h : eraseAllCommands = eraseSweepSpec := by decide
  refine ⟨?_, by decide, by decide⟩
  rw [sketchCommands, if_pos rfl, h]

/-- Whether a `Command` is an in-range `Move` (or not a `Move` at all). -/
def moveInRange : Command → Bool
  | .move a b => decide (a ≤ 3580 ∧ b ≤ 1230)
  | _ => true

theorem moveInRange_bounds {a b : ℕ} (h : moveInRange (.move a b) = true) :
    a ≤ 3580 ∧ b ≤ 1230 := by
  simpa [moveInRange] using h

/-- Clamp form of `fix_x`: it equals `max 0 (min x 358)`. -/
theorem fix_x_eq_clamp (x : ℚ) : fix_x x = max 0 (min x 358) := by
  rw [fix_x]
  have hw : ((IBB_WIDTH : ℕ) : ℚ) = 358 := by norm_num [IBB_WIDTH]
  rw [hw]
  split_ifs with h1 h2
  · rw [min_eq_left (by linarith), max_eq_left (by linarith)]
  · rw [min_eq_right (by linarith), max_eq_right (by norm_num)]
  · rw [min_eq_left (by linarith), max_eq_right (by linarith)]

/-- Clamp form of `fix_y`: it equals `max 0 (min (123 - y) 123)`. -/
theorem fix_y_eq_clamp (y : ℚ) : fix_y y = max 0 (min (123 - y) 123) := by
  rw [fix_y]
  have hh : ((IBB_HEIGHT : ℕ) : ℚ) = 123 := by norm_num [IBB_HEIGHT]
  simp only [hh]
  split_ifs with h1 h2
  · rw [min_eq_left (by linarith), max_eq_left (by linarith)]
  · rw [min_eq_right (by linarith), max_eq_right (by norm_num)]
  · rw [min_eq_left (by linarith), max_eq_right (by linarith)]

theorem ratTruncU16_le (q : ℚ) (m : ℕ) (hq : q ≤ m) (hm : m ≤ 65535) :
    ratTruncU16 q ≤ m := by
  rw [ratTruncU16]
  split_ifs with h0
  · omega
  · push_neg at h0
    have hden : 0 < q.den := q.pos
    have hnum : q.num ≤ m * q.den := by
      have hq2 : (q.num : ℚ) = q * q.den := (Rat.mul_den_eq_num q).symm
      have : (q.num : ℚ) ≤ (m : ℚ) * (q.den : ℚ) := by
        rw [hq2]
        have hd : (0 : ℚ) < q.den := by exact_mod_cast hden
        nlinarith
      exact_mod_cast this
    have hdiv : q.num.toNat / q.den ≤ m := by
      have h1 : q.num.toNat ≤ m * q.den := by omega
      calc q.num.toNat / q.den ≤ m * q.den / q.den := Nat.div_le_div_right h1
        _ = m := Nat.mul_div_cancel m hden
    omega

theorem fix_x_le (x : ℚ) : fix_x x ≤ 358 := by
  rw [fix_x_eq_clamp]
  rcases le_total x 358 with h | h
  · rw [min_eq_left h]
    rcases le_total 0 x with h2 | h2
    · rw [max_eq_right h2]; exact h
    · rw [max_eq_left h2]; norm_num
  · rw [min_eq_right h, max_eq_right (by norm_num)]

theorem fix_y_le (y : ℚ) : fix_y y ≤ 123 := by
  rw [fix_y_eq_clamp]
  rcases le_total (123 - y) 123 with h | h
  · rw [min_eq_left h]
    rcases le_total 0 (123 - y) with h2 | h2
    · rw [max_eq_right h2]; exact h
    · rw [max_eq_left h2]; norm_num
  · rw [min_eq_right h, max_eq_right (by norm_num)]

theorem moveFor_inRange (p : ℚ × ℚ) : moveInRange (moveFor p) = true := by
  rw [moveFor, moveInRange]
  refine decide_eq_true ⟨?_, ?_⟩
  · exact ratTruncU16_le _ 3580 (by have := fix_x_le p.1; push_cast; linarith) (by norm_num)
  · exact ratTruncU16_le _ 1230 (by have := fix_y_le p.2; push_cast; linarith) (by norm_num)

theorem polylineCommands_inRange (pl : Polyline) (c : Command)
    (hc : c ∈ polylineCommands pl) : moveInRange c = true := by
  match pl with
  | [] => simp [polylineCommands] at hc
  | [p] => simp [polylineCommands] at hc
  | p0 :: p1 :: rest =>
      rw [polylineCommands] at hc
      rcases List.mem_cons.mp hc with h | h
      · rw [h]; exact moveFor_inRange p0
      rcases List.mem_cons.mp h with h | h
      · rw [h]; rfl
      rcases List.mem_append.mp h with h | h
      · obtain ⟨p, _, hp⟩ := List.mem_map.mp h
        rw [← hp]; exact moveFor_inRange p
      · rw [List.mem_singleton.mp h]; rfl

theorem eraseAll_inRange : ∀ c ∈ eraseAllCommands, moveInRange c = true := by decide

theorem sketchCommands_inRange (P : List Polyline) (e : Bool) (c : Command)
    (hc : c ∈ sketchCommands P e) : moveInRange c = true := by
  rw [sketchCommands] at hc
  rcases List.mem_cons.mp hc with h | h
  · rw [h]; rfl
  rcases List.mem_append.mp h with h | h
  · cases e with
    | true =>
        rw [if_pos rfl] at h
        exact eraseAll_inRange c h
    | false =>
        rw [if_neg (by simp)] at h
        rcases List.mem_cons.mp h with h2 | h2
        · rw [h2]; rfl
        · rw [List.mem_singleton.mp h2]; rfl
  rcases List.mem_append.mp h with h | h
  · obtain ⟨pl, _, hpl⟩ := List.mem_flatMap.mp h
    exact polylineCommands_inRange pl c hpl
  · rcases List.mem_cons.mp h with h | h
    · rw [h]; rfl
    · rw [List.mem_singleton.mp h]; rfl

/-- C7: the `Move` built for a source point applies exactly the clamps
`x_dev = trunc(clamp(x, 0, 358) * 10)`, `y_dev = trunc(clamp(123 - y, 0,
123) * 10)`; and every `Move` in a compiled stream has payload
`x ≤ 3580`, `y ≤ 1230`. -/
theorem c7_coordinate_fixing :
    (∀ x y : ℚ, moveFor (x, y) =
      Command.move (ratTruncU16 (max 0 (min x 358) * 10))
        (ratTruncU16 (max 0 (min (123 - y) 123) * 10))) ∧
    (∀ (P : List Polyline) (e : Bool) (a b : ℕ),
      Command.move a b ∈ sketchCommands P e → a ≤ 3580 ∧ b ≤ 1230) := by
  constructor
  · intro x y
    rw [moveFor, fix_x_eq_clamp, fix_y_eq_clamp]
  · intro P e a b hmem
    exact moveInRange_bounds (sketchCommands_inRange P e _ hmem)

/-- Witness for C7: the clamp at the out-of-board point `(400, -5)` and the
range bound on the `Move(0, 1230)` of the erase preamble. -/
theorem c7_coordinate_fixing_witness :
    moveFor ((400 : ℚ), (-5 : ℚ)) =
      Command.move (ratTruncU16 (max 0 (min 400 358) * 10))
        (ratTruncU16 (max 0 (min (123 - (-5)) 123) * 10)) ∧
    (0 ≤ 3580 ∧ 1230 ≤ 1230) :=
  ⟨c7_coordinate_fixing.1 400 (-5),
    c7_coordinate_fixing.2 [] true 0 1230 (by decide)⟩

end IBoardBot

namespace IBoardBot

theorem mkBlocks_map_drop (cs : List (List ℕ)) :
    ∀ i, (mkBlocks i cs).map (fun b => b.drop 6) = cs := by
  induction cs with
  | nil => intro i; simp [mkBlocks]
  | cons c cs ih =>
      intro i
      simp only [mkBlocks, List.map_cons, ih, blockNumberBytes, Command.toBytesTotal]
      congr 1

/-- Each polyline contributes either nothing or a list ending in `PenLift`. -/
theorem polylineCommands_ends (pl : Polyline) :
    polylineCommands pl = [] ∨
      ∃ l, polylineCommands pl = l ++ [Command.penLift] := by
  match pl with
  | [] => exact Or.inl rfl
  | [p] => exact Or.inl rfl
  | p0 :: p1 :: rest =>
      right
      refine ⟨moveFor p0 :: Command.penDown :: (p1 :: rest).map moveFor, ?_⟩
      rw [polylineCommands]
      simp

theorem flatMap_polylineCommands_ends (P : List Polyline) :
    P.flatMap polylineCommands = [] ∨
      ∃ l, P.flatMap polylineCommands = l ++ [Command.penLift] := by
  induction P with
  | nil => exact Or.inl rfl
  | cons pl P ih =>
      rw [List.flatMap_cons]
      rcases ih with h | ⟨l, hl⟩
      · rw [h, List.append_nil]
        exact polylineCommands_ends pl
      · right
        exact ⟨polylineCommands pl ++ l, by rw [hl, List.append_assoc]⟩

theorem flatMap_polylineCommands_ne_nil (P : List Polyline)
    (h : ∃ pl ∈ P, 2 ≤ pl.length) : P.flatMap polylineCommands ≠ [] := by
  obtain ⟨pl, hmem, hlen⟩ := h
  intro hnil
  rw [List.flatMap_eq_nil_iff] at hnil
  have := hnil pl hmem
  match pl, hlen with
  | p0 :: p1 :: rest, _ => simp [polylineCommands] at this

/-- C4 (amended): concatenating the block bodies reproduces the command
byte buffer; the command stream begins with `StartDrawing` and ends with
`Move(0,0); StopDrawing`; and whenever some polyline has at least two
points, the three final commands are `PenLift; Move(0,0); StopDrawing`.
(The original claim's unconditional `PenLift`/`Move(0,0)` pair fails when
no polyline is drawable, see `c4_stream_shape_counterexample`.) -/
theorem c4_stream_shape (P : List Polyline) (e : Bool) (bs : List Block)
    (h : intoBlocks P e = some bs) :
    (bs.map (fun b => b.drop 6)).flatten = sketchBuf P e ∧
    (∃ mid, sketchCommands P e =
      Command.startDrawing :: (mid ++ [Command.move 0 0, Command.stopDrawing])) ∧
    ((∃ pl ∈ P, 2 ≤ pl.length) → ∃ mid, sketchCommands P e =
      Command.startDrawing ::
        (mid ++ [Command.penLift, Command.move 0 0, Command.stopDrawing])) := by
  obtain ⟨hbs, -⟩ := intoBlocks_eq_some P e bs h
  refine ⟨?_, ?_, ?_⟩
  · rw [hbs, mkBlocks_map_drop]
    exact chunksGo_join 762 (by norm_num) (sketchBuf P e).length (sketchBuf P e) le_rfl
  · refine ⟨(if e then eraseAllCommands else [Command.penLift, Command.move 0 0]) ++
      P.flatMap polylineCommands, ?_⟩
    rw [sketchCommands, List.append_assoc]
  · intro hpl
    rcases flatMap_polylineCommands_ends P with hnil | ⟨l, hl⟩
    · exact absurd hnil (flatMap_polylineCommands_ne_nil P hpl)
    · refine ⟨(if e then eraseAllCommands else [Command.penLift, Command.move 0 0]) ++ l, ?_⟩
      rw [sketchCommands, hl]
      simp [List.append_assoc]

/-- Counterexample to C4 as stated: for the empty polyline list the two
commands immediately before `StopDrawing` are `Move(0,0); Move(0,0)`, not
`PenLift; Move(0,0)`. -/
theorem c4_stream_shape_counterexample :
    intoBlocks [] false = some [[0xfa, 0x9f, 0xa1, 0xfa, 0x90, 0x01, 0xfa, 0x1f, 0xa1,
      0xfa, 0x30, 0x00, 0x00, 0x00, 0x00, 0x00, 0x00, 0x00, 0xfa, 0x20, 0x00]] ∧
    sketchCommands [] false =
      [Command.startDrawing, Command.penLift, Command.move 0 0, Command.move 0 0,
        Command.stopDrawing] ∧
    ¬ ∃ mid, sketchCommands [] false =
      Command.startDrawing ::
        (mid ++ [Command.penLift, Command.move 0 0, Command.stopDrawing]) := by
  refine ⟨by decide, by decide, ?_⟩
  rintro ⟨mid, hmid⟩
  have hsc : sketchCommands [] false =
      [Command.startDrawing, Command.penLift, Command.move 0 0, Command.move 0 0,
        Command.stopDrawing] := by decide
  rw [hsc] at hmid
  have hlen := congrArg List.length hmid
  simp at hlen
  rcases mid with - | ⟨a, rest⟩
  · simp at hlen
  rcases rest with - | ⟨b, rest⟩
  · simp at hmid
  · simp at hlen

/-- Witness for C4 (amended) at the empty sketch. -/
theorem c4_stream_shape_witness :
    ((((intoBlocks [] false).getD []).map (fun b => b.drop 6)).flatten =
      sketchBuf [] false) ∧
    (∃ mid, sketchCommands [] false =
      Command.startDrawing :: (mid ++ [Command.move 0 0, Command.stopDrawing])) :=
  ⟨(c4_stream_shape [] false ((intoBlocks [] false).getD []) (by decide)).1,
    (c4_stream_shape [] false ((intoBlocks [] false).getD []) (by decide)).2.1⟩

end IBoardBot

namespace IBoardBot

/-- The resync arm of the ACK decision: the line carries an ACK number `n`
that is neither `1` nor `current_block` but exceeds it (the source arm
`Ok(number) if number > current_block`, reached after the `== 1` and
`== current_block` guards failed). -/
def ackResync (cur : ℕ) (line : List Char) : Prop :=
  ∃ ds n, ackCapture line = some ds ∧ parseU32 ds = some n ∧
    n ≠ 1 ∧ n ≠ cur ∧ cur < n

theorem ackCapture_hasPre (line ds : List Char) (h : ackCapture line = some ds) :
    hasPre clPre line = true := by
  rw [ackCapture] at h
  by_cases hp : hasPre ackPre line = true
  · have h18 : line.take ackPre.length = ackPre := by
      rw [hasPre] at hp
      exact beq_iff_eq.mp hp
    rw [hasPre, beq_iff_eq]
    have h3 : clPre = ackPre.take clPre.length := by decide
    have hlen : clPre.length ≤ ackPre.length := by decide
    calc line.take clPre.length = (line.take ackPre.length).take clPre.length := by
          rw [List.take_take, min_eq_left hlen]
      _ = clPre := by rw [h18, ← h3]
  · rw [if_neg (by simpa using hp)] at h
    exact absurd h (by simp)

theorem readyLine_hasPre : hasPre clPre readyLine = true := by decide

theorem ackCapture_readyLine : ackCapture readyLine = none := by decide

theorem serialStep_eq (q : List Block) (cur : ℕ) (line : List Char) :
    serialStep ⟨q, cur⟩ line =
      if 0 < q.length ∧ hasPre clPre line = true then
        if (serialDecision cur line).1 = true then
          ((⟨q.tail, (serialDecision cur line).2 + 1⟩ : SerialState), true)
        else (⟨q, (serialDecision cur line).2⟩, false)
      else (⟨q, cur⟩, false) := rfl

/-- C3: in the serial loop, one block is sent exactly when the queue is
non-empty and the trimmed line is `CL STATUS=READY`, or is a full ACK match
whose number `n` parses (as `u32`) and satisfies `n = 1`, `n =
current_block`, or `n > current_block`.  On a send the front block is
popped and `current_block` is incremented by exactly one — from `1` in the
resync arm (which first sets `current_block = 1`), from its old value
otherwise.  When no block is sent, the state is unchanged. -/
theorem c3_serial_send (q : List Block) (cur : ℕ) (line : List Char) :
    ((serialStep ⟨q, cur⟩ line).2 = true ↔
      (q ≠ [] ∧ (line = readyLine ∨
        ∃ ds n, ackCapture line = some ds ∧ parseU32 ds = some n ∧
          (n = 1 ∨ n = cur ∨ cur < n)))) ∧
    ((serialStep ⟨q, cur⟩ line).2 = true →
      (serialStep ⟨q, cur⟩ line).1.queue = q.tail) ∧
    ((serialStep ⟨q, cur⟩ line).2 = true → ackResync cur line →
      (serialStep ⟨q, cur⟩ line).1.currentBlock = 1 + 1) ∧
    ((serialStep ⟨q, cur⟩ line).2 = true → ¬ ackResync cur line →
      (serialStep ⟨q, cur⟩ line).1.currentBlock = cur + 1) ∧
    ((serialStep ⟨q, cur⟩ line).2 = false →
      (serialStep ⟨q, cur⟩ line).1 = ⟨q, cur⟩) := by
  rcases hq : q with - | ⟨b, qs⟩
  · have hstep : serialStep ⟨[], cur⟩ line = (⟨[], cur⟩, false) := by
      rw [serialStep_eq, if_neg]
      intro hgate
      simp at hgate
    rw [hstep]
    simp
  · by_cases hcl : hasPre clPre line = true
    · have hgate : 0 < (b :: qs : List Block).length ∧ hasPre clPre line = true :=
        ⟨by simp, hcl⟩
      by_cases hready : line = readyLine
      · subst hready
        have hdec : serialDecision cur readyLine = (true, cur) := by
          rw [serialDecision, if_pos rfl]
        have hstep : serialStep ⟨b :: qs, cur⟩ readyLine = (⟨qs, cur + 1⟩, true) := by
          rw [serialStep_eq, if_pos hgate, hdec]
          simp
        rw [hstep]
        have hnores : ¬ ackResync cur readyLine := by
          rintro ⟨ds, n, hds, -⟩
          rw [ackCapture_readyLine] at hds
          exact absurd hds (by simp)
        exact ⟨by simp, fun _ => rfl, fun _ hres => absurd hres hnores,
          fun _ _ => rfl, by simp⟩
      · rcases hack : ackCapture line with - | ds
        · have hdec : serialDecision cur line = (false, cur) := by
            rw [serialDecision, if_neg hready, hack]
          have hstep : serialStep ⟨b :: qs, cur⟩ line = (⟨b :: qs, cur⟩, false) := by
            rw [serialStep_eq, if_pos hgate, hdec]
            simp
          rw [hstep]
          refine ⟨?_, by simp, by simp, by simp, fun _ => rfl⟩
          simp only [Bool.false_eq_true, false_iff]
          rintro ⟨-, hready2 | ⟨ds2, n2, hds2, -⟩⟩
          · exact hready hready2
          · exact absurd hds2 (by simp)
        · rcases hn : parseU32 ds with - | n
          · have hdec : serialDecision cur line = (false, cur) := by
              rw [serialDecision, if_neg hready, hack]
              dsimp only
              rw [hn]
            have hstep : serialStep ⟨b :: qs, cur⟩ line = (⟨b :: qs, cur⟩, false) := by
              rw [serialStep_eq, if_pos hgate, hdec]
              simp
            rw [hstep]
            refine ⟨?_, by simp, by simp, by simp, fun _ => rfl⟩
            simp only [Bool.false_eq_true, false_iff]
            rintro ⟨-, hready2 | ⟨ds2, n2, hds2, hn2, -⟩⟩
            · exact hready hready2
            · obtain rfl := Option.some_inj.mp hds2
              rw [hn] at hn2
              exact absurd hn2 (by simp)
          · by_cases h1 : n = 1
            · have hdec : serialDecision cur line = (true, cur) := by
                rw [serialDecision, if_neg hready, hack]
                dsimp only
                rw [hn]
                dsimp only
                rw [if_pos h1]
              have hstep : serialStep ⟨b :: qs, cur⟩ line = (⟨qs, cur + 1⟩, true) := by
                rw [serialStep_eq, if_pos hgate, hdec]
                simp
              rw [hstep]
              have hnores : ¬ ackResync cur line := by
                rintro ⟨ds2, n2, hds2, hn2, hne1, -⟩
                rw [hack] at hds2
                obtain rfl := Option.some_inj.mp hds2
                rw [hn] at hn2
                obtain rfl := Option.some_inj.mp hn2
                exact hne1 h1
              refine ⟨?_, fun _ => rfl, fun _ hres => absurd hres hnores,
                fun _ _ => rfl, by simp⟩
              simp only [true_iff]
              exact ⟨by simp, Or.inr ⟨ds, n, rfl, hn, Or.inl h1⟩⟩
            · by_cases h2 : n = cur
              · have hdec : serialDecision cur line = (true, cur) := by
                  rw [serialDecision, if_neg hready, hack]
                  dsimp only
                  rw [hn]
                  dsimp only
                  rw [if_neg h1, if_pos h2]
                have hstep : serialStep ⟨b :: qs, cur⟩ line = (⟨qs, cur + 1⟩, true) := by
                  rw [serialStep_eq, if_pos hgate, hdec]
                  simp
                rw [hstep]
                have hnores : ¬ ackResync cur line := by
                  rintro ⟨ds2, n2, hds2, hn2, -, hnecur, -⟩
                  rw [hack] at hds2
                  obtain rfl := Option.some_inj.mp hds2
                  rw [hn] at hn2
                  obtain rfl := Option.some_inj.mp hn2
                  exact hnecur h2
                refine ⟨?_, fun _ => rfl, fun _ hres => absurd hres hnores,
                  fun _ _ => rfl, by simp⟩
                simp only [true_iff]
                exact ⟨by simp, Or.inr ⟨ds, n, rfl, hn, Or.inr (Or.inl h2)⟩⟩
              · by_cases h3 : cur < n
                · have hdec : serialDecision cur line = (true, 1) := by
                    rw [serialDecision, if_neg hready, hack]
                    dsimp only
                    rw [hn]
                    dsimp only
                    rw [if_neg h1, if_neg h2, if_pos h3]
                  have hstep : serialStep ⟨b :: qs, cur⟩ line = (⟨qs, 1 + 1⟩, true) := by
                    rw [serialStep_eq, if_pos hgate, hdec]
                    simp
                  rw [hstep]
                  have hres : ackResync cur line := ⟨ds, n, hack, hn, h1, h2, h3⟩
                  refine ⟨?_, fun _ => rfl, fun _ _ => rfl,
                    fun _ hnres => absurd hres hnres, by simp⟩
                  simp only [true_iff]
                  exact ⟨by simp, Or.inr ⟨ds, n, rfl, hn, Or.inr (Or.inr h3)⟩⟩
                · have hdec : serialDecision cur line = (false, cur) := by
                    rw [serialDecision, if_neg hready, hack]
                    dsimp only
                    rw [hn]
                    dsimp only
                    rw [if_neg h1, if_neg h2, if_neg h3]
                  have hstep : serialStep ⟨b :: qs, cur⟩ line = (⟨b :: qs, cur⟩, false) := by
                    rw [serialStep_eq, if_pos hgate, hdec]
                    simp
                  rw [hstep]
                  refine ⟨?_, by simp, by simp, by simp, fun _ => rfl⟩
                  simp only [Bool.false_eq_true, false_iff]
                  rintro ⟨-, hready2 | ⟨ds2, n2, hds2, hn2, hdisj⟩⟩
                  · exact hready hready2
                  · obtain rfl := Option.some_inj.mp hds2
                    rw [hn] at hn2
                    obtain rfl := Option.some_inj.mp hn2
                    rcases hdisj with hd | hd | hd
                    · exact h1 hd
                    · exact h2 hd
                    · exact h3 hd
    · have hstep : serialStep ⟨b :: qs, cur⟩ line = (⟨b :: qs, cur⟩, false) := by
        rw [serialStep_eq, if_neg]
        rintro ⟨-, hcl2⟩
        exact hcl hcl2
      rw [hstep]
      refine ⟨?_, by simp, by simp, by simp, fun _ => rfl⟩
      simp only [Bool.false_eq_true, false_iff]
      rintro ⟨-, hready | ⟨ds, n, hds, -⟩⟩
      · rw [hready] at hcl
        exact hcl readyLine_hasPre
      · exact hcl (ackCapture_hasPre line ds hds)

/-- Witness for C3, mirroring the spec's ACK-reset scenario: state
`current_block = 7`, line `CL STATUS=ACK&NUM=12`, non-empty queue — a
block is sent, the front block is popped, `current_block` becomes `2`. -/
theorem c3_serial_send_witness :
    (serialStep ⟨[[1]], 7⟩ (String.toList "CL STATUS=ACK&NUM=12")).2 = true ∧
    (serialStep ⟨[[1]], 7⟩ (String.toList "CL STATUS=ACK&NUM=12")).1.queue = [] ∧
    (serialStep ⟨[[1]], 7⟩ (String.toList "CL STATUS=ACK&NUM=12")).1.currentBlock = 1 + 1 := by
  have hsend : (serialStep ⟨[[1]], 7⟩ (String.toList "CL STATUS=ACK&NUM=12")).2 = true :=
    (c3_serial_send [[1]] 7 (String.toList "CL STATUS=ACK&NUM=12")).1.mpr
      ⟨by decide, Or.inr ⟨['1', '2'], 12, by decide, by decide, Or.inr (Or.inr (by decide))⟩⟩
  refine ⟨hsend, ?_, ?_⟩
  · exact (c3_serial_send [[1]] 7 (String.toList "CL STATUS=ACK&NUM=12")).2.1 hsend
  · exact (c3_serial_send [[1]] 7 (String.toList "CL STATUS=ACK&NUM=12")).2.2.1 hsend
      ⟨['1', '2'], 12, by decide, by decide, by decide, by decide, by decide⟩

end IBoardBot

namespace IBoardBot

/-- C5 (the code contradicts this claim): on `PrintTask::Scheduled` with an
empty set list, the `return` in the intake arm exits the whole spawned
thread closure — the driver thread terminates instead of discarding the
task and continuing its loop.  This theorem evaluates the intake arm at the
failing input. -/
theorem c5_empty_scheduled_exits_thread :
    handleTask [] (.scheduled 60 []) = .threadExit ∧
    ∀ (q : List Block) (i : ℕ), handleTask q (.scheduled i []) = .threadExit := by
  constructor
  · rfl
  · intro q i
    rfl

theorem scheduledFire_eq (sets : List (List Polyline)) (p : ℕ × List Block) :
    scheduledFire sets p =
      (p.1 + 1, p.2 ++ ((intoBlocks (sets.getD (p.1 % sets.length) []) true).getD [])) := by
  rcases p with ⟨a, b⟩
  rfl

theorem runFirings_fst (sets : List (List Polyline)) (q : List Block) :
    ∀ k : ℕ, (runFirings sets q k).1 = k := by
  intro k
  induction k with
  | zero => rfl
  | succ k ih =>
      have hit : runFirings sets q (k + 1) = scheduledFire sets (runFirings sets q k) := by
        rw [runFirings, runFirings, Function.iterate_succ_apply']
      rw [hit, scheduledFire_eq, ih]

/-- C8: accepting `Scheduled(interval, sets)` (with `sets` non-empty)
registers the job and resets the iteration counter to `0`; the `k`-th
subsequent firing (0-based) compiles `sets[k mod N]` with `erase = true`
and appends its blocks; and the rotation is round-robin with period `N`. -/
theorem c8_round_robin (d : ℕ) (sets : List (List Polyline)) (hne : sets ≠ [])
    (q : List Block) :
    handleTask q (.scheduled d sets) = .proceed (some ⟨d, sets⟩) 0 q ∧
    (∀ k : ℕ, (runFirings sets q k).1 = k) ∧
    (∀ k : ℕ, (runFirings sets q (k + 1)).2 =
      (runFirings sets q k).2 ++
        (intoBlocks (sets.getD (k % sets.length) []) true).getD []) ∧
    (∀ k : ℕ, sets.getD ((k + sets.length) % sets.length) [] =
      sets.getD (k % sets.length) []) := by
  refine ⟨?_, runFirings_fst sets q, ?_, ?_⟩
  · rw [handleTask, if_neg hne]
  · intro k
    have hit : runFirings sets q (k + 1) = scheduledFire sets (runFirings sets q k) := by
      rw [runFirings, runFirings, Function.iterate_succ_apply']
    rw [hit, scheduledFire_eq, runFirings_fst sets q k]
  · intro k
    rw [Nat.add_mod_right]

/-- Witness for C8 with two scheduled drawings. -/
theorem c8_round_robin_witness :
    handleTask [] (.scheduled 5 [[], []]) = .proceed (some ⟨5, [[], []]⟩) 0 [] ∧
      (runFirings [[], []] [] 3).1 = 3 :=
  ⟨(c8_round_robin 5 [[], []] (by decide) []).1,
    (c8_round_robin 5 [[], []] (by decide) []).2.1 3⟩

end IBoardBot

namespace Scaling

open IBoardBot (Polyline)

/-- All four accumulators are `Some`. -/
def accAllSome (acc : BoundsAcc) : Prop :=
  acc.1.isSome ∧ acc.2.1.isSome ∧ acc.2.2.1.isSome ∧ acc.2.2.2.isSome

theorem boundsStep_allSome (acc : BoundsAcc) (c : ℚ × ℚ) :
    accAllSome (boundsStep acc c) := by
  obtain ⟨o1, o2, o3, o4⟩ := acc
  refine ⟨?_, ?_, ?_, ?_⟩ <;>
    · simp only [boundsStep, updMin, updMax]
      first
      | (cases o1 <;> simp <;> split_ifs <;> simp)
      | (cases o2 <;> simp <;> split_ifs <;> simp)
      | (cases o3 <;> simp <;> split_ifs <;> simp)
      | (cases o4 <;> simp <;> split_ifs <;> simp)

theorem foldl_boundsStep_allSome (pl : Polyline) :
    ∀ acc : BoundsAcc, accAllSome acc → accAllSome (pl.foldl boundsStep acc) := by
  induction pl with
  | nil => intro acc h; exact h
  | cons p pl ih =>
      intro acc h
      rw [List.foldl_cons]
      exact ih _ (boundsStep_allSome acc p)

theorem foldl_boundsStep_allSome_of_ne (pl : Polyline) (hne : pl ≠ []) (acc : BoundsAcc) :
    accAllSome (pl.foldl boundsStep acc) := by
  match pl, hne with
  | p :: pl, _ =>
      rw [List.foldl_cons]
      exact foldl_boundsStep_allSome pl _ (boundsStep_allSome acc p)

theorem outer_foldl_allSome (P : List Polyline) :
    ∀ acc : BoundsAcc, accAllSome acc →
      accAllSome (P.foldl (fun a pl => pl.foldl boundsStep a) acc) := by
  induction P with
  | nil => intro acc h; exact h
  | cons pl P ih =>
      intro acc h
      rw [List.foldl_cons]
      exact ih _ (foldl_boundsStep_allSome pl acc h)

theorem outer_foldl_allSome_of_mem (P : List Polyline) (pl : Polyline)
    (hmem : pl ∈ P) (hne : pl ≠ []) (acc : BoundsAcc) :
    accAllSome (P.foldl (fun a pl => pl.foldl boundsStep a) acc) := by
  induction P generalizing acc with
  | nil => simp at hmem
  | cons pl2 P ih =>
      rw [List.foldl_cons]
      rcases List.mem_cons.mp hmem with h | h
      · subst h
        exact outer_foldl_allSome P _ (foldl_boundsStep_allSome_of_ne pl hne acc)
      · exact ih h _

theorem outer_foldl_all_empty (P : List Polyline) (h : ∀ pl ∈ P, pl = [])
    (acc : BoundsAcc) :
    P.foldl (fun a pl => pl.foldl boundsStep a) acc = acc := by
  induction P generalizing acc with
  | nil => rfl
  | cons pl P ih =>
      rw [List.foldl_cons, h pl (by simp)]
      exact ih (fun pl2 h2 => h pl2 (by simp [h2])) acc

theorem getBounds_eq_none_iff (P : List Polyline) :
    getBounds P = none ↔ ∀ pl ∈ P, pl = [] := by
  constructor
  · intro h pl hpl
    by_contra hne
    have hall := outer_foldl_allSome_of_mem P pl hpl hne (none, none, none, none)
    rw [getBounds] at h
    rcases hacc : P.foldl (fun a pl => pl.foldl boundsStep a)
        (none, none, none, none) with ⟨o1, o2, o3, o4⟩
    rw [hacc] at h hall
    obtain ⟨h1, h2, h3, h4⟩ := hall
    simp only at h1 h2 h3 h4
    rcases o1 with - | a <;> rcases o2 with - | b <;> rcases o3 with - | c <;>
      rcases o4 with - | d <;> simp_all
  · intro h
    rw [getBounds, outer_foldl_all_empty P h]

/-- C10: `fit_polylines` returns `Err` exactly when the list is non-empty
and every inner polyline is empty (no coordinate at all, so no bounds); an
empty list returns `Ok` with the polylines untouched, and on `Err` the
polylines are also untouched. -/
theorem c10_fit_err_iff (P : List Polyline) (t : Bounds) :
    ((∃ msg, (fitPolylines P t).1 = .error msg) ↔ (P ≠ [] ∧ ∀ pl ∈ P, pl = [])) ∧
    (P = [] → fitPolylines P t = (.ok (), P)) ∧
    ((∃ msg, (fitPolylines P t).1 = .error msg) → (fitPolylines P t).2 = P) := by
  by_cases hP : P = []
  · subst hP
    refine ⟨?_, fun _ => rfl, ?_⟩
    · simp [fitPolylines]
    · rintro ⟨msg, hmsg⟩
      simp [fitPolylines] at hmsg
  · rcases hgb : getBounds P with - | bd
    · have hfit : fitPolylines P t = (.error "Could not calculate bounds", P) := by
        rw [fitPolylines, if_neg hP, hgb]
      rw [hfit]
      exact ⟨⟨fun _ => ⟨hP, (getBounds_eq_none_iff P).mp hgb⟩,
          fun _ => ⟨"Could not calculate bounds", rfl⟩⟩,
        fun h => absurd h hP, fun _ => rfl⟩
    · have hfit1 : (fitPolylines P t).1 = .ok () := by
        rw [fitPolylines, if_neg hP, hgb]
      refine ⟨?_, fun h => absurd h hP, ?_⟩
      · constructor
        · rintro ⟨msg, hmsg⟩
          rw [hfit1] at hmsg
          exact absurd hmsg (by simp)
        · rintro ⟨-, hall⟩
          have := (getBounds_eq_none_iff P).mpr hall
          rw [hgb] at this
          exact absurd this (by simp)
      · rintro ⟨msg, hmsg⟩
        rw [hfit1] at hmsg
        exact absurd hmsg (by simp)

/-- Witness for C10 at `[[ ]]` (one polyline with no coordinates). -/
theorem c10_fit_err_iff_witness :
    (fitPolylines [[]] ⟨⟨0, 358⟩, ⟨0, 123⟩⟩).2 = [[]] ∧
      (([[]] : List Polyline) ≠ [] ∧ ∀ pl ∈ ([[]] : List Polyline), pl = []) :=
  ⟨(c10_fit_err_iff [[]] ⟨⟨0, 358⟩, ⟨0, 123⟩⟩).2.2
      ⟨"Could not calculate bounds", rfl⟩,
    (c10_fit_err_iff [[]] ⟨⟨0, 358⟩, ⟨0, 123⟩⟩).1.mp
      ⟨"Could not calculate bounds", rfl⟩⟩

end Scaling

namespace IBoardBot

-- Mirrors of the Rust unit tests in robot.rs (test_empty_sketch, test_simple_block).
example : intoBlocks [] false = some [[
    0xfa, 0x9f, 0xa1,
    0xfa, 0x90, 0x01,
    0xfa, 0x1f, 0xa1,
    0xfa, 0x30, 0x00,
    0x00, 0x00, 0x00,
    0x00, 0x00, 0x00,
    0xfa, 0x20, 0x00]] := by decide

example : moveFor ((12.3 : ℚ), (45.6 : ℚ)) = Command.move 123 774 := by
  norm_num [moveFor, fix_x, fix_y, ratTruncU16, IBB_WIDTH, IBB_HEIGHT]
  decide

example : moveFor ((14.3 : ℚ), (47.6 : ℚ)) = Command.move 143 754 := by
  norm_num [moveFor, fix_x, fix_y, ratTruncU16, IBB_WIDTH, IBB_HEIGHT]
  decide

example : intoBlocks [[(12.3, 45.6), (14.3, 47.6)]] false = some [[
    0xfa, 0x9f, 0xa1,
    0xfa, 0x90, 0x01,
    0xfa, 0x1f, 0xa1,
    0xfa, 0x30, 0x00,
    0x00, 0x00, 0x00,
    0x07, 0xb3, 0x06,
    0xfa, 0x40, 0x00,
    0x08, 0xf2, 0xf2,
    0xfa, 0x30, 0x00,
    0x00, 0x00, 0x00,
    0xfa, 0x20, 0x00]] := by
  have h1 : moveFor ((12.3 : ℚ), (45.6 : ℚ)) = Command.move 123 774 := by
    norm_num [moveFor, fix_x, fix_y, ratTruncU16, IBB_WIDTH, IBB_HEIGHT]
    decide
  have h2 : moveFor ((14.3 : ℚ), (47.6 : ℚ)) = Command.move 143 754 := by
    norm_num [moveFor, fix_x, fix_y, ratTruncU16, IBB_WIDTH, IBB_HEIGHT]
    decide
  have hc : sketchCommands [[(12.3, 45.6), (14.3, 47.6)]] false =
      [Command.startDrawing, Command.penLift, Command.move 0 0,
       Command.move 123 774, Command.penDown, Command.move 143 754,
       Command.penLift, Command.move 0 0, Command.stopDrawing] := by
    simp [sketchCommands, polylineCommands, h1, h2]
  simp only [intoBlocks, sketchBuf, hc]
  decide

end IBoardBot
